import Mathlib

/-!
Verification development for the NLPLogAnalysis repository.

The repository has two Python source files:
* `log_handlers.py` — per-format normalizers turning raw log lines into
  cleaned log records (`ApacheErrorLogHandler.parse_log_file`,
  `ApacheAccessLogHandler.parse_log_file`);
* `get_log_insights.py` — orchestration plus the scorer `get_top_ngrams`,
  which uses `sklearn.feature_extraction.text.TfidfVectorizer` with
  `ngram_range=(n, n)`, `lowercase=False`, `token_pattern=r'\S+'` and
  `smooth_idf=False` (hence the sklearn defaults `norm='l2'`,
  `use_idf=True`, `sublinear_tf=False`), sums the resulting matrix over
  documents, sorts by weight descending (Python's stable sort with
  `reverse=True`) and keeps the first 10 entries.

Strings are modelled as `List Char`; Python's `str.split(sep)`,
`str.replace(old, '')` and `' '.join` are modelled by `pySplit`,
`pyRemove` and `List.intercalate`.  Real-valued quantities use `ℝ`,
with `Real.log` and `Real.sqrt` for numpy's `log` and the l2 norm.
-/

/-- Python `str.split(sep)` for a non-empty separator `sep`, on character
lists: scan left to right, cut at each non-overlapping occurrence of
`sep`.  `pySplit sep s` always returns at least one segment.  (For
`sep = []` Python raises; the guard makes the Lean function total but it
is only ever used with non-empty literal separators.) -/
def pySplit (sep : List Char) : List Char → List (List Char)
  | [] => [[]]
  | c :: rest =>
    if sep ≠ [] ∧ sep.isPrefixOf (c :: rest) then
      [] :: pySplit sep (rest.drop (sep.length - 1))
    else
      (c :: (pySplit sep rest).headD []) :: (pySplit sep rest).tail
termination_by s => s.length
decreasing_by all_goals (simp [List.length_drop]; try omega)

/-- Python `str.replace(pat, '')` for a non-empty pattern `pat`, on
character lists: remove every non-overlapping occurrence of `pat`,
scanning left to right. -/
def pyRemove (pat : List Char) : List Char → List Char
  | [] => []
  | c :: rest =>
    if pat ≠ [] ∧ pat.isPrefixOf (c :: rest) then
      pyRemove pat (rest.drop (pat.length - 1))
    else
      c :: pyRemove pat rest
termination_by s => s.length
decreasing_by all_goals (simp [List.length_drop]; try omega)

/-- The per-line body of `ApacheErrorLogHandler.parse_log_file`
(`log_handlers.py` lines 54–64): split the line on the literal `"] "`;
if the split yields strictly more than 2 parts, emit the parts from
index 2 on rejoined with `' '.join`, otherwise emit nothing. -/
def parse_error_line (line : List Char) : Option (List Char) :=
  let tmp_str_arr := pySplit ("] ".toList) line
  if tmp_str_arr.length > 2 then
    some (List.intercalate [' '] (tmp_str_arr.drop 2))
  else
    none

/-- The loop of `ApacheErrorLogHandler.parse_log_file` over the lines of
a file: malformed lines are silently skipped and processing continues. -/
def parse_error_log_lines (lines : List (List Char)) : List (List Char) :=
  lines.filterMap parse_error_line

/-- The per-line body of `ApacheAccessLogHandler.parse_log_file`
(`log_handlers.py` lines 89–102): split on `' - - ['`, take
`tmp_str_arr[0]` as the client field and `tmp_str_arr[1]` for the rest;
split that on `'] "'`, take index 1, strip every `'"'` and every `'-'`,
and join client and remainder with one space.  The two subscript
accesses raise `IndexError` when the delimiter is absent, modelled by
`Except.error`. -/
def parse_access_line (line : List Char) : Except String (List Char) :=
  let tmp_str_arr := pySplit (" - - [".toList) line
  let client_ip := tmp_str_arr.headD []
  match tmp_str_arr[1]? with
  | none => Except.error "list index out of range"
  | some r1 =>
    match (pySplit ("] \"".toList) r1)[1]? with
    | none => Except.error "list index out of range"
    | some r2 =>
      Except.ok (client_ip ++ [' '] ++ pyRemove ['-'] (pyRemove ['"'] r2))

/-- The loop of `ApacheAccessLogHandler.parse_log_file` over the lines
of a file: the first malformed line raises, aborting the whole run. -/
def parse_access_log_lines : List (List Char) → Except String (List (List Char))
  | [] => Except.ok []
  | l :: ls =>
    match parse_access_line l with
    | Except.error e => Except.error e
    | Except.ok r =>
      match parse_access_log_lines ls with
      | Except.error e => Except.error e
      | Except.ok rs => Except.ok (r :: rs)

/-- sklearn's `token_pattern=r'\S+'` tokenizer: the maximal runs of
non-whitespace characters of a document, in order. -/
def tokenize : List Char → List (List Char)
  | [] => []
  | c :: rest =>
    if c.isWhitespace then tokenize rest
    else (c :: rest.takeWhile (fun x => !x.isWhitespace)) ::
      tokenize (rest.dropWhile (fun x => !x.isWhitespace))
termination_by s => s.length
decreasing_by
  · simp
  · simpa using Nat.lt_succ_of_le (List.dropWhile_sublist _).length_le

/-- sklearn's `_word_ngrams` for `ngram_range=(n, n)`: every contiguous
window of exactly `n` tokens, rejoined with single spaces, in order of
starting position.  Empty when the document has fewer than `n` tokens. -/
def ngrams (n : ℕ) (toks : List (List Char)) : List (List Char) :=
  (List.range (toks.length + 1 - n)).map
    (fun i => List.intercalate [' '] ((toks.drop i).take n))

/-- Deduplication keeping the first occurrence of each element, the
order in which sklearn's counting dict assigns vocabulary entries. -/
def dedupF : List (List Char) → List (List Char)
  | [] => []
  | x :: xs => x :: dedupF (xs.filter (fun y => y ≠ x))
termination_by l => l.length
decreasing_by
  simpa using Nat.lt_succ_of_le (List.length_filter_le _ _)

/-- The vocabulary built by `TfidfVectorizer.fit_transform`: all
distinct n-grams of the corpus, in order of first occurrence. -/
def vocabulary (docs : List (List Char)) (n : ℕ) : List (List Char) :=
  dedupF ((docs.map (fun d => ngrams n (tokenize d))).flatten)

/-- Term frequency: the raw count of occurrences of the n-gram `g` in
the n-gram sequence of the document `d`. -/
def tf (g d : List Char) (n : ℕ) : ℕ :=
  (ngrams n (tokenize d)).count g

/-- Document frequency: the number of documents of the corpus that
contain the n-gram `g` at least once. -/
def df (docs : List (List Char)) (g : List Char) (n : ℕ) : ℕ :=
  (docs.filter (fun d => decide (g ∈ ngrams n (tokenize d)))).length

/-- Inverse document frequency as computed by `TfidfTransformer` with
`smooth_idf=False`: `log(n_samples / df) + 1`. -/
noncomputable def idf (docs : List (List Char)) (n : ℕ) (g : List Char) : ℝ :=
  Real.log ((docs.length : ℝ) / (df docs g n : ℝ)) + 1

/-- One entry of the tf-idf matrix before row normalization:
`TF(g, d) * IDF(g)`. -/
noncomputable def tfidf (docs : List (List Char)) (n : ℕ) (d g : List Char) : ℝ :=
  (tf g d n : ℝ) * idf docs n g

/-- The l2 norm of the tf-idf row of document `d` (over the whole
vocabulary). -/
noncomputable def rowNorm (docs : List (List Char)) (n : ℕ) (d : List Char) : ℝ :=
  Real.sqrt (((vocabulary docs n).map (fun g => tfidf docs n d g ^ 2)).sum)

/-- One entry of the tf-idf matrix after sklearn's `norm='l2'` row
normalization (`sklearn.preprocessing.normalize` leaves rows of norm 0
unchanged, dividing them by 1). -/
noncomputable def nTfidf (docs : List (List Char)) (n : ℕ) (d g : List Char) : ℝ :=
  tfidf docs n d g / (if rowNorm docs n d = 0 then 1 else rowNorm docs n d)

/-- The aggregate weight the scorer reports for an n-gram:
`bag_of_words.sum(axis=0)` of the row-normalized matrix, i.e. the sum of
the normalized per-document weights. -/
noncomputable def aggWeight (docs : List (List Char)) (n : ℕ) (g : List Char) : ℝ :=
  (docs.map (fun d => nTfidf docs n d g)).sum

/-- Modelled from the spec: the aggregate weight as §4.2 of the spec
describes it — the raw sum over all documents of `TF(g,d) × IDF(g)`,
with no normalization or dampening applied before summing. -/
noncomputable def rawAggregate (docs : List (List Char)) (n : ℕ) (g : List Char) : ℝ :=
  (docs.map (fun d => tfidf docs n d g)).sum

/-- The comparison used to rank scored n-grams: by weight, descending
(`sorted(..., key=lambda x: x[1], reverse=True)`). -/
def wge (p q : List Char × ℝ) : Prop := q.2 ≤ p.2

noncomputable instance : DecidableRel wge := fun p q => Real.decidableLE q.2 p.2

instance : IsTotal (List Char × ℝ) wge := ⟨fun p q => le_total q.2 p.2⟩

instance : IsTrans (List Char × ℝ) wge := ⟨fun _ _ _ h1 h2 => le_trans h2 h1⟩

/-- `get_top_ngrams` of `get_log_insights.py` (lines 105–117): build the
vocabulary (sklearn raises `ValueError` when it is empty), compute the
column sums of the row-normalized tf-idf matrix, sort the
(n-gram, weight) pairs by weight descending with a stable sort, and keep
the first 10. -/
noncomputable def get_top_ngrams (record_list : List (List Char)) (n : ℕ) :
    Except String (List (List Char × ℝ)) :=
  let vocab := vocabulary record_list n
  if vocab = [] then
    Except.error "empty vocabulary; perhaps the documents only contain stop words"
  else
    Except.ok ((List.insertionSort wge
      (vocab.map (fun g => (g, aggWeight record_list n g)))).take 10)

/-- Claim C5: for every raw line, the error-log normalizer splits on the
literal delimiter `"] "`; with strictly more than 2 parts it emits
exactly one record, the parts from index 2 on rejoined with a single
space, and with 2 or fewer parts it emits no record; in particular
`"[Mon Jan 01] [error] real error text"` yields `"real error text"`. -/
theorem C5_error_normalizer (line : List Char) :
    ((pySplit ("] ".toList) line).length > 2 →
      parse_error_line line =
        some (List.intercalate [' '] ((pySplit ("] ".toList) line).drop 2))) ∧
    ((pySplit ("] ".toList) line).length ≤ 2 → parse_error_line line = none) ∧
    parse_error_line ("[Mon Jan 01] [error] real error text".toList) =
      some ("real error text".toList) := by
  refine ⟨fun h => ?_, fun h => ?_, ?_⟩
  · simp only [parse_error_line]
    rw [if_pos h]
  · simp only [parse_error_line]
    rw [if_neg (by omega)]
  · simp [parse_error_line, pySplit, List.intercalate]

/-- Witness for C5 at the concrete line `"[a] [b] c d"`, whose split has
3 parts. -/
theorem C5_witness :
    (pySplit ("] ".toList) ("[a] [b] c d".toList)).length > 2 ∧
    parse_error_line ("[a] [b] c d".toList) = some ("c d".toList) := by
  have h : (pySplit ("] ".toList) ("[a] [b] c d".toList)).length > 2 := by
    simp [pySplit]
  refine ⟨h, ?_⟩
  rw [(C5_error_normalizer ("[a] [b] c d".toList)).1 h]
  simp [pySplit, List.intercalate]

/-- Claim C6: the access-log normalizer maps the line
`'127.0.0.1 - - [01/Jan/2020] "GET /x HTTP/1.1" 200 - -'` to the record
`"127.0.0.1 GET /x HTTP/1.1 200  "`: the client field before
`" - - ["`, then the part after `"] \""` with every double quote and
every hyphen removed, joined by one space. -/
theorem C6_access_normalizer :
    parse_access_line
        ("127.0.0.1 - - [01/Jan/2020] \"GET /x HTTP/1.1\" 200 - -".toList) =
      Except.ok ("127.0.0.1 GET /x HTTP/1.1 200  ".toList) := by
  simp [parse_access_line, pySplit, pyRemove]

/-- Claim C7: the two normalizers have asymmetric error policies.  On a
line lacking the expected delimiters, the access-log normalizer raises
(`IndexError`), and the failure aborts the whole file pass, while the
error-log normalizer emits nothing for the line, continues with the
remaining lines, and never raises (it is a total function into
`List`). -/
theorem C7_asymmetric_error_policy (line : List Char) (rest : List (List Char))
    (hacc : (pySplit (" - - [".toList) line).length = 1 ∨
      (pySplit ("] \"".toList)
        ((pySplit (" - - [".toList) line).getD 1 [])).length = 1)
    (herr : (pySplit ("] ".toList) line).length ≤ 2) :
    parse_access_line line = Except.error "list index out of range" ∧
    parse_access_log_lines (line :: rest) =
      Except.error "list index out of range" ∧
    parse_error_line line = none ∧
    parse_error_log_lines (line :: rest) = parse_error_log_lines rest := by
  have herrline : parse_error_line line = none := by
    simp only [parse_error_line]
    rw [if_neg (by omega)]
  have haccline : parse_access_line line = Except.error "list index out of range" := by
    rcases hacc with h1 | h2
    · simp only [parse_access_line]
      rw [List.getElem?_eq_none (by omega)]
    · cases hg : (pySplit (" - - [".toList) line)[1]? with
      | none => simp only [parse_access_line]; rw [hg]
      | some r1 =>
        have hr1 : (pySplit (" - - [".toList) line).getD 1 [] = r1 := by
          rw [List.getD_eq_getElem?_getD, hg]; rfl
        rw [hr1] at h2
        have hnone : (pySplit ("] \"".toList) r1)[1]? = none :=
          List.getElem?_eq_none (by omega)
        simp only [parse_access_line, hg, hnone]
  refine ⟨haccline, ?_, herrline, ?_⟩
  · simp [parse_access_log_lines, haccline]
  · simp [parse_error_log_lines, herrline]

/-- Witness for C7 at the delimiter-free line `"garbage"`. -/
theorem C7_witness :
    parse_access_line ("garbage".toList) = Except.error "list index out of range" ∧
    parse_access_log_lines ["garbage".toList] =
      Except.error "list index out of range" ∧
    parse_error_line ("garbage".toList) = none ∧
    parse_error_log_lines ["garbage".toList] = parse_error_log_lines [] :=
  C7_asymmetric_error_policy ("garbage".toList) []
    (Or.inl (by simp [pySplit])) (by simp [pySplit])

/-- Claim C3 counterexample: on an empty corpus the scorer raises
sklearn's empty-vocabulary `ValueError` instead of returning an empty
ranked result list. -/
theorem C3_counterexample :
    get_top_ngrams ([] : List (List Char)) 1 =
      Except.error "empty vocabulary; perhaps the documents only contain stop words" ∧
    get_top_ngrams ([] : List (List Char)) 1 ≠
      Except.ok ([] : List (List Char × ℝ)) := by
  have h : get_top_ngrams ([] : List (List Char)) 1 =
      Except.error "empty vocabulary; perhaps the documents only contain stop words" := by
    simp [get_top_ngrams, vocabulary, dedupF]
  refine ⟨h, ?_⟩
  rw [h]
  intro hc
  exact Except.noConfusion hc

/-- Claim C3 (amended): when the corpus is empty, or `n` exceeds every
document's token count, the vocabulary is empty and the scorer raises an
empty-vocabulary error (which aborts the run), rather than returning an
empty list. -/
theorem C3_amended (docs : List (List Char)) (n : ℕ)
    (h : docs = [] ∨ ∀ d ∈ docs, (tokenize d).length < n) :
    get_top_ngrams docs n =
      Except.error "empty vocabulary; perhaps the documents only contain stop words" := by
  have hv : vocabulary docs n = [] := by
    rcases h with h | h
    · subst h; simp [vocabulary, dedupF]
    · simp only [vocabulary]
      have hfl : (docs.map (fun d => ngrams n (tokenize d))).flatten = [] := by
        rw [List.flatten_eq_nil_iff]
        intro l hl
        simp only [List.mem_map] at hl
        obtain ⟨d, hd, rfl⟩ := hl
        have hlen : (tokenize d).length + 1 - n = 0 := by
          have := h d hd; omega
        simp [ngrams, hlen]
      rw [hfl]
      simp [dedupF]
  simp [get_top_ngrams, hv]

/-- Witness for the amended C3: a one-document corpus whose document has
2 tokens, scored with `n = 3`. -/
theorem C3_witness :
    get_top_ngrams ["a b".toList] 3 =
      Except.error "empty vocabulary; perhaps the documents only contain stop words" :=
  C3_amended ["a b".toList] 3 (Or.inr (by
    intro d hd
    rw [List.mem_singleton] at hd
    subst hd
    simp [tokenize]))

/-- Claim C9: the scorer is deterministic — two runs on the same record
list and the same `n` return identical ranked result lists. -/
theorem C9_deterministic (docs1 docs2 : List (List Char)) (n1 n2 : ℕ)
    (hd : docs1 = docs2) (hn : n1 = n2) :
    get_top_ngrams docs1 n1 = get_top_ngrams docs2 n2 := by
  rw [hd, hn]

/-- Witness for C9 at a concrete run. -/
theorem C9_witness :
    get_top_ngrams ["x y".toList] 1 = get_top_ngrams ["x y".toList] 1 :=
  C9_deterministic ["x y".toList] ["x y".toList] 1 1 rfl rfl

/-- Claim C4: for every corpus and every n-gram of its vocabulary, the
IDF the scorer uses is `ln(D / df(g)) + 1` with no smoothing term, where
`df(g)` counts the documents containing `g` at least once (presence, not
multiplicity); consequently an n-gram appearing in every document has
IDF exactly 1. -/
theorem C4_idf_formula (docs : List (List Char)) (n : ℕ) (g : List Char)
    (_hg : g ∈ vocabulary docs n) :
    idf docs n g = Real.log ((docs.length : ℝ) / (df docs g n : ℝ)) + 1 ∧
    df docs g n =
      (docs.filter (fun d => decide (1 ≤ (ngrams n (tokenize d)).count g))).length ∧
    ((∀ d ∈ docs, g ∈ ngrams n (tokenize d)) → idf docs n g = 1) := by
  refine ⟨rfl, ?_, ?_⟩
  · unfold df
    congr 1
    apply List.filter_congr
    intro d _
    rw [decide_eq_decide]
    exact ⟨fun hmem => List.count_pos_iff.2 hmem, fun hc => List.count_pos_iff.1 hc⟩
  · intro hall
    have hdf : df docs g n = docs.length := by
      unfold df
      rw [List.filter_eq_self.2 (fun d hd => by simpa using hall d hd)]
    unfold idf
    rw [hdf]
    rcases Nat.eq_zero_or_pos docs.length with h0 | hpos
    · rw [h0]
      norm_num
    · rw [div_self (by exact_mod_cast Nat.pos_iff_ne_zero.1 hpos)]
      simp

/-- Witness for C4 on the corpus `["a"]` with `n = 1` and `g = "a"`. -/
theorem C4_witness :
    idf ["a".toList] 1 ['a'] =
      Real.log ((["a".toList].length : ℝ) / (df ["a".toList] ['a'] 1 : ℝ)) + 1 ∧
    df ["a".toList] ['a'] 1 =
      (["a".toList].filter
        (fun d => decide (1 ≤ (ngrams 1 (tokenize d)).count ['a']))).length ∧
    ((∀ d ∈ ["a".toList], ['a'] ∈ ngrams 1 (tokenize d)) →
      idf ["a".toList] 1 ['a'] = 1) :=
  C4_idf_formula ["a".toList] 1 ['a']
    (by simp [vocabulary, ngrams, tokenize, dedupF, List.range_succ, List.intercalate])

/-- Membership is preserved by first-occurrence deduplication. -/
theorem mem_dedupF (x : List Char) (l : List (List Char)) :
    x ∈ dedupF l ↔ x ∈ l := by
  induction l using dedupF.induct with
  | case1 => simp [dedupF]
  | case2 y ys ih =>
    rw [dedupF]
    simp only [List.mem_cons, ih, List.mem_filter]
    constructor
    · rintro (rfl | ⟨hx, _⟩)
      · exact Or.inl rfl
      · exact Or.inr hx
    · rintro (rfl | hx)
      · exact Or.inl rfl
      · by_cases hxy : x = y
        · exact Or.inl hxy
        · exact Or.inr ⟨hx, by simpa using hxy⟩

/-- An n-gram is in the vocabulary exactly when some document of the
corpus contains it. -/
theorem mem_vocabulary (docs : List (List Char)) (n : ℕ) (g : List Char) :
    g ∈ vocabulary docs n ↔ ∃ d ∈ docs, g ∈ ngrams n (tokenize d) := by
  unfold vocabulary
  rw [mem_dedupF]
  simp only [List.mem_flatten, List.mem_map]
  constructor
  · rintro ⟨l, ⟨d, hd, rfl⟩, hg⟩
    exact ⟨d, hd, hg⟩
  · rintro ⟨d, hd, hg⟩
    exact ⟨_, ⟨d, hd, rfl⟩, hg⟩

/-- A list of non-negative reals summing to zero is all zeros. -/
theorem list_sum_eq_zero_of_nonneg {l : List ℝ} (hn : ∀ x ∈ l, 0 ≤ x)
    (h : l.sum = 0) : ∀ x ∈ l, x = 0 := by
  induction l with
  | nil => simp
  | cons a l ih =>
    have ha : 0 ≤ a := hn a (by simp)
    have hl : 0 ≤ l.sum := List.sum_nonneg (fun x hx => hn x (by simp [hx]))
    rw [List.sum_cons] at h
    have ha0 : a = 0 := by linarith
    intro x hx
    rcases List.mem_cons.1 hx with rfl | hx
    · exact ha0
    · exact ih (fun y hy => hn y (by simp [hy])) (by linarith) x hx

/-- Claim C1 counterexample: on the one-document corpus `["a a"]` with
`n = 1`, the scorer reports weight 1 for `"a"` (the document row
`(2 · 1)` is divided by its l2 norm 2 before summing), while the raw
TF·IDF sum is 2 — so the reported weight is not the raw sum. -/
theorem C1_counterexample :
    aggWeight ["a a".toList] 1 ['a'] = 1 ∧
    rawAggregate ["a a".toList] 1 ['a'] = 2 ∧
    aggWeight ["a a".toList] 1 ['a'] ≠ rawAggregate ["a a".toList] 1 ['a'] := by
  have hvoc : vocabulary ["a a".toList] 1 = [['a']] := by
    simp [vocabulary, ngrams, tokenize, dedupF, List.range_succ, List.intercalate]
  have hng : ngrams 1 (tokenize ['a', ' ', 'a']) = [['a'], ['a']] := by
    simp [ngrams, tokenize, List.range_succ, List.intercalate]
  have hdf : df ["a a".toList] ['a'] 1 = 1 := by
    simp [df, hng]
  have hidf : idf ["a a".toList] 1 ['a'] = 1 := by
    unfold idf
    rw [hdf]
    norm_num
  have htfidf : tfidf ["a a".toList] 1 ("a a".toList) ['a'] = 2 := by
    unfold tfidf
    rw [hidf]
    have htf : tf ['a'] ("a a".toList) 1 = 2 := by
      simp [tf, hng]
    rw [htf]
    norm_num
  have hnorm : rowNorm ["a a".toList] 1 ("a a".toList) = 2 := by
    unfold rowNorm
    rw [hvoc]
    simp only [List.map_cons, List.map_nil, List.sum_cons, List.sum_nil]
    rw [htfidf]
    have h4 : (2:ℝ) ^ 2 + 0 = 2 ^ 2 := by norm_num
    rw [h4, Real.sqrt_sq (by norm_num : (0:ℝ) ≤ 2)]
  have hagg : aggWeight ["a a".toList] 1 ['a'] = 1 := by
    unfold aggWeight
    simp only [List.map_cons, List.map_nil, List.sum_cons, List.sum_nil]
    unfold nTfidf
    rw [hnorm, if_neg (by norm_num : (2:ℝ) ≠ 0), htfidf]
    norm_num
  have hraw : rawAggregate ["a a".toList] 1 ['a'] = 2 := by
    unfold rawAggregate
    simp only [List.map_cons, List.map_nil, List.sum_cons, List.sum_nil]
    rw [htfidf]
    norm_num
  refine ⟨hagg, hraw, ?_⟩
  rw [hagg, hraw]
  norm_num

/-- Claim C1 (amended): the aggregate weight the scorer reports for an
n-gram is the sum over all documents of the l2-normalized per-document
TF-IDF weights, `TF(g,d) × IDF(g) / ‖row(d)‖₂` (a document whose row has
zero norm contributes zero). -/
theorem C1_amended (docs : List (List Char)) (n : ℕ) (g : List Char) :
    aggWeight docs n g =
      (docs.map (fun d => tfidf docs n d g / rowNorm docs n d)).sum := by
  unfold aggWeight
  apply congrArg List.sum
  apply List.map_congr_left
  intro d hd
  unfold nTfidf
  by_cases h0 : rowNorm docs n d = 0
  · rw [if_pos h0, h0]
    have htf0 : tfidf docs n d g = 0 := by
      by_cases hg : g ∈ vocabulary docs n
      · have hnn : ∀ x ∈ (vocabulary docs n).map (fun g' => tfidf docs n d g' ^ 2), 0 ≤ x := by
          intro x hx
          simp only [List.mem_map] at hx
          obtain ⟨g', _, rfl⟩ := hx
          positivity
        have hsum : ((vocabulary docs n).map (fun g' => tfidf docs n d g' ^ 2)).sum = 0 := by
          unfold rowNorm at h0
          exact (Real.sqrt_eq_zero (List.sum_nonneg hnn)).1 h0
        have hterm : tfidf docs n d g ^ 2 = 0 :=
          list_sum_eq_zero_of_nonneg hnn hsum _ (List.mem_map_of_mem _ hg)
        exact pow_eq_zero_iff (by norm_num) |>.1 hterm
      · have htf : tf g d n = 0 := by
          rw [tf, List.count_eq_zero]
          intro hmem
          exact hg ((mem_vocabulary docs n g).2 ⟨d, hd, hmem⟩)
        unfold tfidf
        rw [htf]
        norm_num
    rw [htf0]
    norm_num
  · rw [if_neg h0]

/-- Claim C8 counterexample: `["a"]` is a non-empty corpus and `n = 2 ≥ 1`
has zero distinct 2-grams, so the claim requires a returned list of
length `min 10 0 = 0`; the scorer instead raises the empty-vocabulary
error and returns no list at all. -/
theorem C8_counterexample :
    get_top_ngrams ["a".toList] 2 =
      Except.error "empty vocabulary; perhaps the documents only contain stop words" ∧
    (["a".toList] : List (List Char)) ≠ [] ∧
    vocabulary ["a".toList] 2 = [] := by
  have hvoc : vocabulary [['a']] 2 = [] := by
    simp [vocabulary, ngrams, tokenize, dedupF]
  refine ⟨?_, by simp, hvoc⟩
  simp [get_top_ngrams, hvoc]

/-- Claim C8 (amended): for every `n ≥ 1` and non-empty corpus whose
vocabulary of n-grams is non-empty, the scorer returns a ranked list of
length `min(10, number of distinct n-grams)` sorted by weight
non-increasing.  (When the vocabulary is empty the scorer raises instead
of returning the empty list, see the counterexample.) -/
theorem C8_amended (docs : List (List Char)) (n : ℕ)
    (_hn : 1 ≤ n) (_hdocs : docs ≠ []) (hvoc : vocabulary docs n ≠ []) :
    ∃ l, get_top_ngrams docs n = Except.ok l ∧
      l.length = min 10 (vocabulary docs n).length ∧
      List.Sorted wge l := by
  refine ⟨(List.insertionSort wge
      ((vocabulary docs n).map (fun g => (g, aggWeight docs n g)))).take 10, ?_, ?_, ?_⟩
  · simp only [get_top_ngrams]
    rw [if_neg hvoc]
  · rw [List.length_take]
    congr 1
    rw [(List.perm_insertionSort wge _).length_eq, List.length_map]
  · exact List.Pairwise.sublist (List.take_sublist _ _)
      (List.sorted_insertionSort wge _)

/-- Witness for the amended C8 on the corpus `["a b"]` with `n = 1`. -/
theorem C8_witness :
    ∃ l, get_top_ngrams ["a b".toList] 1 = Except.ok l ∧
      l.length = min 10 (vocabulary ["a b".toList] 1).length ∧
      List.Sorted wge l :=
  C8_amended ["a b".toList] 1 (by norm_num) (by simp)
    (by simp [vocabulary, ngrams, tokenize, dedupF, List.range_succ, List.intercalate])

/-- Unfolding equation for `pySplit` when the separator matches at the
head of the string. -/
theorem pySplit_cons_of_pos (sep : List Char) (c : Char) (rest : List Char)
    (h : sep ≠ [] ∧ sep.isPrefixOf (c :: rest) = true) :
    pySplit sep (c :: rest) =
      [] :: pySplit sep (rest.drop (sep.length - 1)) := by
  simp only [pySplit]
  rw [if_pos h]

/-- Unfolding equation for `pySplit` when the separator does not match
at the head of the string. -/
theorem pySplit_cons_of_neg (sep : List Char) (c : Char) (rest : List Char)
    (h : ¬(sep ≠ [] ∧ sep.isPrefixOf (c :: rest) = true)) :
    pySplit sep (c :: rest) =
      (c :: (pySplit sep rest).headD []) :: (pySplit sep rest).tail := by
  simp only [pySplit]
  rw [if_neg h]

/-- A successful `isPrefixOf` test yields an append decomposition. -/
theorem isPrefixOf_exists : ∀ (p s : List Char), p.isPrefixOf s = true →
    ∃ t, s = p ++ t
  | [], s, _ => ⟨s, rfl⟩
  | a :: p, [], h => by simp [List.isPrefixOf] at h
  | a :: p, b :: s, h => by
    simp only [List.isPrefixOf, Bool.and_eq_true, beq_iff_eq] at h
    obtain ⟨rfl, h2⟩ := h
    obtain ⟨t, rfl⟩ := isPrefixOf_exists p s h2
    exact ⟨t, rfl⟩

/-- The last element named by `getLast?` is a member of the list. -/
theorem getLast?_mem_of_eq {l : List Char} {a : Char}
    (h : l.getLast? = some a) : a ∈ l := by
  rw [List.getLast?_eq_getElem?] at h
  exact List.getElem?_mem h

/-- Consing onto a non-empty list does not change `getLast?`. -/
theorem getLast?_cons_of_ne_nil {α : Type} (a : α) {l : List α} (h : l ≠ []) :
    (a :: l).getLast? = l.getLast? := by
  obtain ⟨b, t, rfl⟩ := List.exists_cons_of_ne_nil h
  exact List.getLast?_cons_cons

/-- `pySplit` always returns at least one segment. -/
theorem pySplit_ne_nil (sep s : List Char) : pySplit sep s ≠ [] := by
  cases s with
  | nil => simp [pySplit]
  | cons c rest =>
    by_cases h : sep ≠ [] ∧ sep.isPrefixOf (c :: rest) = true
    · rw [pySplit_cons_of_pos sep c rest h]
      simp
    · rw [pySplit_cons_of_neg sep c rest h]
      simp

/-- When a string ends in a character that does not occur in the
separator, the last segment of its `pySplit` is non-empty and ends in
that same character. -/
theorem pySplit_getLast (sep : List Char) (ch : Char) (hch : ch ∉ sep) :
    ∀ s : List Char, s.getLast? = some ch →
      ∃ t, (pySplit sep s).getLast? = some t ∧ t.getLast? = some ch := by
  intro s
  induction s using pySplit.induct sep with
  | case1 => intro h; simp at h
  | case2 c rest hcond ih =>
    intro hlast
    obtain ⟨hsep, hpre⟩ := hcond
    obtain ⟨t, ht⟩ := isPrefixOf_exists sep (c :: rest) hpre
    have htne : t ≠ [] := by
      rintro rfl
      apply hch
      apply getLast?_mem_of_eq
      rw [ht] at hlast
      simpa using hlast
    have hdrop : rest.drop (sep.length - 1) = t := by
      obtain ⟨a, sep', rfl⟩ := List.exists_cons_of_ne_nil hsep
      have h1 : (c :: rest).drop (a :: sep').length = t := by
        rw [ht, List.drop_left]
      simpa using h1
    have htlast : t.getLast? = some ch := by
      rw [ht, List.getLast?_append_of_ne_nil _ htne] at hlast
      exact hlast
    obtain ⟨u, hu1, hu2⟩ := by
      rw [hdrop] at ih
      exact ih htlast
    refine ⟨u, ?_, hu2⟩
    rw [pySplit_cons_of_pos sep c rest ⟨hsep, hpre⟩, hdrop,
      getLast?_cons_of_ne_nil _ (pySplit_ne_nil sep t)]
    exact hu1
  | case3 c rest hcond ih =>
    intro hlast
    rw [pySplit_cons_of_neg sep c rest hcond]
    by_cases hr : rest = []
    · subst hr
      have hc : c = ch := by simpa using hlast
      subst hc
      exact ⟨[c], by simp [pySplit], by simp⟩
    · have hlast' : rest.getLast? = some ch := by
        rwa [getLast?_cons_of_ne_nil c hr] at hlast
      obtain ⟨t, ht1, ht2⟩ := ih hlast'
      obtain ⟨p, ps, hps⟩ := List.exists_cons_of_ne_nil (pySplit_ne_nil sep rest)
      rw [hps] at ht1
      rw [hps]
      simp only [List.headD_cons, List.tail_cons]
      cases ps with
      | nil =>
        have hpt : p = t := by simpa using ht1
        subst hpt
        have hpne : p ≠ [] := by rintro rfl; simp at ht2
        refine ⟨c :: p, by simp, ?_⟩
        rw [getLast?_cons_of_ne_nil c hpne]
        exact ht2
      | cons q qs =>
        refine ⟨t, ?_, ht2⟩
        rw [List.getLast?_cons_cons]
        rwa [List.getLast?_cons_cons] at ht1

/-- Rejoining a list of parts whose last part ends in `ch` produces a
string ending in `ch`. -/
theorem getLast?_intercalate (sep : List Char) :
    ∀ (parts : List (List Char)) (t : List Char) (ch : Char),
      parts.getLast? = some t → t.getLast? = some ch →
      (List.intercalate sep parts).getLast? = some ch := by
  intro parts
  induction parts with
  | nil => intro t ch h _; simp at h
  | cons x rest ih =>
    intro t ch h1 h2
    cases rest with
    | nil =>
      have hxt : x = t := by simpa using h1
      subst hxt
      simpa [List.intercalate] using h2
    | cons y ys =>
      have hlast : (y :: ys).getLast? = some t := by
        rwa [List.getLast?_cons_cons] at h1
      have ihr := ih t ch hlast h2
      have hne : List.intercalate sep (y :: ys) ≠ [] := by
        rintro hnil
        rw [hnil] at ihr
        simp at ihr
      have hic : List.intercalate sep (x :: y :: ys) =
          x ++ (sep ++ List.intercalate sep (y :: ys)) := by
        simp [List.intercalate]
      rw [hic, List.getLast?_append_of_ne_nil _ (by simp [hne]),
        List.getLast?_append_of_ne_nil _ hne]
      exact ihr

/-- Python `str.replace(c, '')` for a single character is a filter. -/
theorem pyRemove_singleton (p : Char) :
    ∀ s : List Char, pyRemove [p] s = s.filter (fun x => x ≠ p) := by
  intro s
  induction s with
  | nil => simp [pyRemove]
  | cons c rest ih =>
    simp only [pyRemove]
    by_cases h : p = c
    · subst h
      rw [if_pos ⟨by simp, by simp [List.isPrefixOf]⟩]
      simpa using ih
    · rw [if_neg]
      · rw [List.filter_cons]
        have hd : (decide (c ≠ p)) = true := by
          simp [Ne.symm h]
        rw [hd]
        simp only [if_true]
        rw [ih]
      · rintro ⟨-, hpre⟩
        simp [List.isPrefixOf] at hpre
        exact h hpre

/-- Filtering with a predicate that keeps the last character keeps it
last. -/
theorem getLast?_filter {q : Char → Bool} {s : List Char} {ch : Char}
    (hq : q ch = true) (h : s.getLast? = some ch) :
    (s.filter q).getLast? = some ch := by
  rw [← List.head?_reverse] at h ⊢
  rw [← List.filter_reverse]
  obtain ⟨t, ht⟩ : ∃ t, s.reverse = ch :: t := by
    cases hrev : s.reverse with
    | nil => rw [hrev] at h; simp at h
    | cons a t =>
      rw [hrev] at h
      simp only [List.head?_cons, Option.some.injEq] at h
      exact ⟨t, by rw [h]⟩
  rw [ht, List.filter_cons, hq]
  simp

/-- Claim C10 counterexample: the access-log line
`'A - - [B] "C] "D\n'` ends in a newline, but because the delimiter
`'] "'` occurs twice the kept segment (index 1 of the second split) is
not the final one, and the produced record `"A C"` does not end in the
newline. -/
theorem C10_counterexample :
    ("A - - [B] \"C] \"D\n".toList).getLast? = some '\n' ∧
    parse_access_line ("A - - [B] \"C] \"D\n".toList) =
      Except.ok ("A C".toList) ∧
    ("A C".toList).getLast? ≠ some '\n' := by
  refine ⟨by decide, ?_, by decide⟩
  simp [parse_access_line, pySplit, pyRemove]

/-- Claim C10 (amended): the error-log normalizer always preserves a
trailing newline (the rejoined parts end with the line's last
character), and the access-log normalizer preserves it when each of its
delimiters occurs exactly once in the line (both splits yield exactly
2 parts), since only double quotes and hyphens are removed from the kept
segment; with repeated delimiters the kept segment need not be the final
one and the newline can be lost (see the counterexample). -/
theorem C10_amended :
    (∀ line r : List Char, line.getLast? = some '\n' →
      parse_error_line line = some r → r.getLast? = some '\n') ∧
    (∀ line r : List Char, line.getLast? = some '\n' →
      (pySplit (" - - [".toList) line).length = 2 →
      (pySplit ("] \"".toList)
        ((pySplit (" - - [".toList) line).getD 1 [])).length = 2 →
      parse_access_line line = Except.ok r → r.getLast? = some '\n') := by
  constructor
  · intro line r hnl hp
    simp only [parse_error_line] at hp
    by_cases hlen : (pySplit ("] ".toList) line).length > 2
    · rw [if_pos hlen] at hp
      have hr : List.intercalate [' ']
          ((pySplit ("] ".toList) line).drop 2) = r := by
        exact Option.some_inj.1 hp
      obtain ⟨t, ht1, ht2⟩ :=
        pySplit_getLast ("] ".toList) '\n' (by decide) line hnl
      have hdrop : ((pySplit ("] ".toList) line).drop 2).getLast? = some t := by
        rw [List.getLast?_drop, if_neg (by omega)]
        exact ht1
      rw [← hr]
      exact getLast?_intercalate [' '] _ t '\n' hdrop ht2
    · rw [if_neg hlen] at hp
      exact absurd hp (by simp)
  · intro line r hnl h1 h2 hp
    obtain ⟨t, ht1, ht2⟩ :=
      pySplit_getLast (" - - [".toList) '\n' (by decide) line hnl
    have hidx : (pySplit (" - - [".toList) line)[1]? = some t := by
      rw [List.getLast?_eq_getElem?, h1] at ht1
      simpa using ht1
    have hgd : (pySplit (" - - [".toList) line).getD 1 [] = t := by
      rw [List.getD_eq_getElem?_getD, hidx]
      rfl
    rw [hgd] at h2
    obtain ⟨u, hu1, hu2⟩ := pySplit_getLast ("] \"".toList) '\n' (by decide) t ht2
    have hidx2 : (pySplit ("] \"".toList) t)[1]? = some u := by
      rw [List.getLast?_eq_getElem?, h2] at hu1
      simpa using hu1
    simp only [parse_access_line, hidx, hidx2] at hp
    have hr : (pySplit (" - - [".toList) line).headD [] ++ [' '] ++
        pyRemove ['-'] (pyRemove ['"'] u) = r := by
      injection hp
    have hu3 : (pyRemove ['"'] u).getLast? = some '\n' := by
      rw [pyRemove_singleton]
      exact getLast?_filter (by decide) hu2
    have hu4 : (pyRemove ['-'] (pyRemove ['"'] u)).getLast? = some '\n' := by
      rw [pyRemove_singleton]
      exact getLast?_filter (by decide) hu3
    have hune : pyRemove ['-'] (pyRemove ['"'] u) ≠ [] := by
      rintro h0
      rw [h0] at hu4
      simp at hu4
    rw [← hr, List.getLast?_append_of_ne_nil _ hune]
    exact hu4

/-- Witness for the amended C10: an error-log line and an
access-log line with single delimiters, both ending in a newline,
produce records ending in the newline. -/
theorem C10_witness :
    (("msg tail\n".toList).getLast? = some '\n') ∧
    (("1.2.3.4 GET /i HTTP/1.0 200 \n".toList).getLast? = some '\n') := by
  constructor
  · exact (C10_amended.1 ("[a] [b] msg tail\n".toList) ("msg tail\n".toList)
      (by decide) (by simp [parse_error_line, pySplit, List.intercalate]))
  · exact (C10_amended.2 ("1.2.3.4 - - [x] \"GET /i HTTP/1.0\" 200 -\n".toList)
      ("1.2.3.4 GET /i HTTP/1.0 200 \n".toList)
      (by decide) (by simp [pySplit]) (by simp [pySplit])
      (by simp [parse_access_line, pySplit, pyRemove]))

/-- Lower and upper rational bounds for `log (3/2)`, from the Taylor
series of `log (1 - x)` at `x = 1/3` with 5 terms. -/
theorem log_three_halves_bounds :
    (0.4030 : ℝ) < Real.log (3 / 2) ∧ Real.log (3 / 2) < 0.4073 := by
  have habs : |(1/3 : ℝ)| = 1/3 := abs_of_pos (by norm_num)
  have h := @Real.abs_log_sub_add_sum_range_le (1/3) (by rw [habs]; norm_num) 5
  rw [habs] at h
  have hsum : (∑ i ∈ Finset.range 5, (1/3 : ℝ)^(i+1)/(i+1)) = 1969/4860 := by
    simp [Finset.sum_range_succ]
    norm_num
  have hlog : Real.log (1 - 1/3 : ℝ) = - Real.log (3/2) := by
    rw [show (1 - 1/3 : ℝ) = (3/2)⁻¹ by norm_num, Real.log_inv]
  rw [hsum, hlog, ← sub_eq_add_neg] at h
  have h3 : (1/3 : ℝ)^6/(1 - 1/3) = 1/486 := by norm_num
  rw [h3] at h
  have h4 := abs_le.1 h
  constructor
  · linarith [h4.2]
  · linarith [h4.1]

/-- Lower and upper rational bounds for `log 3`, via
`log 3 = log 2 + log (3/2)`. -/
theorem log_three_bounds : (1.0961 : ℝ) < Real.log 3 ∧ Real.log 3 < 1.1005 := by
  have h32 := log_three_halves_bounds
  have hsplit : Real.log 3 = Real.log 2 + Real.log (3/2) := by
    rw [← Real.log_mul (by norm_num) (by norm_num)]
    norm_num
  have h2l := Real.log_two_gt_d9
  have h2u := Real.log_two_lt_d9
  constructor
  · linarith [h32.1]
  · linarith [h32.2]

/-- The three weight comparisons of the `["a b", "a c", "a b"]`, `n = 1`
scenario, in closed form: `b`'s weight beats `a`'s, `a`'s beats `c`'s,
and `a`'s weight is below 3. -/
theorem c2_core :
    (2 / Real.sqrt (1 + (Real.log (3/2) + 1)^2) +
      1 / Real.sqrt (1 + (Real.log 3 + 1)^2) <
     2 * (Real.log (3/2) + 1) / Real.sqrt (1 + (Real.log (3/2) + 1)^2)) ∧
    ((Real.log 3 + 1) / Real.sqrt (1 + (Real.log 3 + 1)^2) <
      2 / Real.sqrt (1 + (Real.log (3/2) + 1)^2) +
      1 / Real.sqrt (1 + (Real.log 3 + 1)^2)) ∧
    (2 / Real.sqrt (1 + (Real.log (3/2) + 1)^2) +
      1 / Real.sqrt (1 + (Real.log 3 + 1)^2) < 3) := by
  obtain ⟨hL1, hL2⟩ := log_three_halves_bounds
  obtain ⟨hM1, hM2⟩ := log_three_bounds
  set L := Real.log (3/2) with hLdef
  set M := Real.log 3 with hMdef
  have hApos : (0:ℝ) < 1 + (L + 1)^2 := by positivity
  have hBpos : (0:ℝ) < 1 + (M + 1)^2 := by positivity
  have hsA : 0 < Real.sqrt (1 + (L + 1)^2) := Real.sqrt_pos.2 hApos
  have hsB : 0 < Real.sqrt (1 + (M + 1)^2) := Real.sqrt_pos.2 hBpos
  have hA1 : 1 < Real.sqrt (1 + (L + 1)^2) := by
    rw [show (1:ℝ) < Real.sqrt (1 + (L + 1)^2) ↔ (1:ℝ)^2 < 1 + (L + 1)^2 from
      Real.lt_sqrt (by norm_num)]
    nlinarith
  have hB1 : 1 < Real.sqrt (1 + (M + 1)^2) := by
    rw [show (1:ℝ) < Real.sqrt (1 + (M + 1)^2) ↔ (1:ℝ)^2 < 1 + (M + 1)^2 from
      Real.lt_sqrt (by norm_num)]
    nlinarith
  have hAub : 1 + (L + 1)^2 < 2.981 := by nlinarith
  have hBlb : (5.3936 : ℝ) < 1 + (M + 1)^2 := by nlinarith
  have key1 : Real.sqrt (1 + (L + 1)^2) < 2 * L * Real.sqrt (1 + (M + 1)^2) := by
    have h4LB : 1 + (L + 1)^2 < (2*L)^2 * (1 + (M + 1)^2) := by nlinarith
    have heq : Real.sqrt ((2*L)^2 * (1 + (M + 1)^2)) =
        2 * L * Real.sqrt (1 + (M + 1)^2) := by
      rw [Real.sqrt_mul (sq_nonneg _), Real.sqrt_sq (by linarith : (0:ℝ) ≤ 2*L)]
    calc Real.sqrt (1 + (L + 1)^2)
        < Real.sqrt ((2*L)^2 * (1 + (M + 1)^2)) :=
          Real.sqrt_lt_sqrt (le_of_lt hApos) h4LB
      _ = 2 * L * Real.sqrt (1 + (M + 1)^2) := heq
  have key2 : M * Real.sqrt (1 + (L + 1)^2) < 2 * Real.sqrt (1 + (M + 1)^2) := by
    have hM0 : (0:ℝ) ≤ M := by linarith
    have hMA : M * Real.sqrt (1 + (L + 1)^2) =
        Real.sqrt (M^2 * (1 + (L + 1)^2)) := by
      rw [Real.sqrt_mul (sq_nonneg _), Real.sqrt_sq hM0]
    have h2B : 2 * Real.sqrt (1 + (M + 1)^2) =
        Real.sqrt (4 * (1 + (M + 1)^2)) := by
      rw [show (4:ℝ) = 2^2 by norm_num, Real.sqrt_mul (sq_nonneg _),
        Real.sqrt_sq (by norm_num : (0:ℝ) ≤ 2)]
    rw [hMA, h2B]
    apply Real.sqrt_lt_sqrt (by positivity)
    nlinarith
  have hfrac1 : 1 / Real.sqrt (1 + (M + 1)^2) <
      2 * L / Real.sqrt (1 + (L + 1)^2) := by
    rw [div_lt_div_iff₀ hsB hsA]
    calc 1 * Real.sqrt (1 + (L + 1)^2) = Real.sqrt (1 + (L + 1)^2) := one_mul _
      _ < 2 * L * Real.sqrt (1 + (M + 1)^2) := key1
  have hfrac2 : M / Real.sqrt (1 + (M + 1)^2) <
      2 / Real.sqrt (1 + (L + 1)^2) := by
    rw [div_lt_div_iff₀ hsB hsA]
    exact key2
  refine ⟨?_, ?_, ?_⟩
  · have hsplit : 2 * (L + 1) / Real.sqrt (1 + (L + 1)^2) =
        2 / Real.sqrt (1 + (L + 1)^2) + 2 * L / Real.sqrt (1 + (L + 1)^2) := by
      ring
    rw [hsplit]
    linarith
  · have hsplit : (M + 1) / Real.sqrt (1 + (M + 1)^2) =
        M / Real.sqrt (1 + (M + 1)^2) + 1 / Real.sqrt (1 + (M + 1)^2) := by
      ring
    rw [hsplit]
    linarith
  · have h2A : 2 / Real.sqrt (1 + (L + 1)^2) < 2 := div_lt_self (by norm_num) hA1
    have h1B : 1 / Real.sqrt (1 + (M + 1)^2) < 1 := div_lt_self (by norm_num) hB1
    linarith

/-- Unigram sequence of the document `"a b"`. -/
theorem c2_ngrams_ab : ngrams 1 (tokenize ['a', ' ', 'b']) = [['a'], ['b']] := by
  simp [ngrams, tokenize, List.range_succ, List.intercalate]

/-- Unigram sequence of the document `"a c"`. -/
theorem c2_ngrams_ac : ngrams 1 (tokenize ['a', ' ', 'c']) = [['a'], ['c']] := by
  simp [ngrams, tokenize, List.range_succ, List.intercalate]

/-- Vocabulary of the scenario corpus, in first-occurrence order. -/
theorem c2_vocab :
    vocabulary [['a', ' ', 'b'], ['a', ' ', 'c'], ['a', ' ', 'b']] 1 =
      [['a'], ['b'], ['c']] := by
  simp [vocabulary, c2_ngrams_ab, c2_ngrams_ac, dedupF]

/-- Document frequencies of the scenario corpus. -/
theorem c2_df :
    df [['a', ' ', 'b'], ['a', ' ', 'c'], ['a', ' ', 'b']] ['a'] 1 = 3 ∧
    df [['a', ' ', 'b'], ['a', ' ', 'c'], ['a', ' ', 'b']] ['b'] 1 = 2 ∧
    df [['a', ' ', 'b'], ['a', ' ', 'c'], ['a', ' ', 'b']] ['c'] 1 = 1 := by
  refine ⟨?_, ?_, ?_⟩ <;> simp [df, c2_ngrams_ab, c2_ngrams_ac]

/-- Inverse document frequencies of the scenario corpus:
`a` is in all 3 documents (IDF 1), `b` in 2, `c` in 1. -/
theorem c2_idf :
    idf [['a', ' ', 'b'], ['a', ' ', 'c'], ['a', ' ', 'b']] 1 ['a'] = 1 ∧
    idf [['a', ' ', 'b'], ['a', ' ', 'c'], ['a', ' ', 'b']] 1 ['b'] =
      Real.log (3 / 2) + 1 ∧
    idf [['a', ' ', 'b'], ['a', ' ', 'c'], ['a', ' ', 'b']] 1 ['c'] =
      Real.log 3 + 1 := by
  obtain ⟨ha, hb, hc⟩ := c2_df
  refine ⟨?_, ?_, ?_⟩ <;> unfold idf
  · rw [ha]; norm_num
  · rw [hb]; norm_num
  · rw [hc]; norm_num

/-- Per-document raw TF-IDF entries of the scenario corpus. -/
theorem c2_tfidf :
    tfidf [['a', ' ', 'b'], ['a', ' ', 'c'], ['a', ' ', 'b']] 1 ['a', ' ', 'b'] ['a'] = 1 ∧
    tfidf [['a', ' ', 'b'], ['a', ' ', 'c'], ['a', ' ', 'b']] 1 ['a', ' ', 'b'] ['b'] =
      Real.log (3 / 2) + 1 ∧
    tfidf [['a', ' ', 'b'], ['a', ' ', 'c'], ['a', ' ', 'b']] 1 ['a', ' ', 'b'] ['c'] = 0 ∧
    tfidf [['a', ' ', 'b'], ['a', ' ', 'c'], ['a', ' ', 'b']] 1 ['a', ' ', 'c'] ['a'] = 1 ∧
    tfidf [['a', ' ', 'b'], ['a', ' ', 'c'], ['a', ' ', 'b']] 1 ['a', ' ', 'c'] ['b'] = 0 ∧
    tfidf [['a', ' ', 'b'], ['a', ' ', 'c'], ['a', ' ', 'b']] 1 ['a', ' ', 'c'] ['c'] =
      Real.log 3 + 1 := by
  obtain ⟨ha, hb, hc⟩ := c2_idf
  have tab_a : tf ['a'] ['a', ' ', 'b'] 1 = 1 := by simp [tf, c2_ngrams_ab]
  have tab_b : tf ['b'] ['a', ' ', 'b'] 1 = 1 := by simp [tf, c2_ngrams_ab]
  have tab_c : tf ['c'] ['a', ' ', 'b'] 1 = 0 := by simp [tf, c2_ngrams_ab]
  have tac_a : tf ['a'] ['a', ' ', 'c'] 1 = 1 := by simp [tf, c2_ngrams_ac]
  have tac_b : tf ['b'] ['a', ' ', 'c'] 1 = 0 := by simp [tf, c2_ngrams_ac]
  have tac_c : tf ['c'] ['a', ' ', 'c'] 1 = 1 := by simp [tf, c2_ngrams_ac]
  refine ⟨?_, ?_, ?_, ?_, ?_, ?_⟩ <;> unfold tfidf
  · rw [tab_a, ha]; norm_num
  · rw [tab_b, hb]; norm_num
  · rw [tab_c]; norm_num
  · rw [tac_a, ha]; norm_num
  · rw [tac_b]; norm_num
  · rw [tac_c, hc]; norm_num

/-- The l2 norms of the two distinct document rows of the scenario. -/
theorem c2_rowNorm :
    rowNorm [['a', ' ', 'b'], ['a', ' ', 'c'], ['a', ' ', 'b']] 1 ['a', ' ', 'b'] =
      Real.sqrt (1 + (Real.log (3 / 2) + 1) ^ 2) ∧
    rowNorm [['a', ' ', 'b'], ['a', ' ', 'c'], ['a', ' ', 'b']] 1 ['a', ' ', 'c'] =
      Real.sqrt (1 + (Real.log 3 + 1) ^ 2) := by
  obtain ⟨hab_a, hab_b, hab_c, hac_a, hac_b, hac_c⟩ := c2_tfidf
  constructor <;> unfold rowNorm <;> rw [c2_vocab] <;>
    simp only [List.map_cons, List.map_nil, List.sum_cons, List.sum_nil]
  · rw [hab_a, hab_b, hab_c]
    congr 1
    ring
  · rw [hac_a, hac_b, hac_c]
    congr 1
    ring

/-- The aggregate (column-summed, row-normalized) weights of the three
unigrams of the scenario corpus. -/
theorem c2_agg :
    aggWeight [['a', ' ', 'b'], ['a', ' ', 'c'], ['a', ' ', 'b']] 1 ['a'] =
      2 / Real.sqrt (1 + (Real.log (3 / 2) + 1) ^ 2) +
      1 / Real.sqrt (1 + (Real.log 3 + 1) ^ 2) ∧
    aggWeight [['a', ' ', 'b'], ['a', ' ', 'c'], ['a', ' ', 'b']] 1 ['b'] =
      2 * (Real.log (3 / 2) + 1) / Real.sqrt (1 + (Real.log (3 / 2) + 1) ^ 2) ∧
    aggWeight [['a', ' ', 'b'], ['a', ' ', 'c'], ['a', ' ', 'b']] 1 ['c'] =
      (Real.log 3 + 1) / Real.sqrt (1 + (Real.log 3 + 1) ^ 2) := by
  obtain ⟨hab_a, hab_b, hab_c, hac_a, hac_b, hac_c⟩ := c2_tfidf
  obtain ⟨hnab, hnac⟩ := c2_rowNorm
  have hsA : Real.sqrt (1 + (Real.log (3 / 2) + 1) ^ 2) ≠ 0 :=
    ne_of_gt (Real.sqrt_pos.2 (by positivity))
  have hsB : Real.sqrt (1 + (Real.log 3 + 1) ^ 2) ≠ 0 :=
    ne_of_gt (Real.sqrt_pos.2 (by positivity))
  refine ⟨?_, ?_, ?_⟩ <;> unfold aggWeight <;>
    simp only [List.map_cons, List.map_nil, List.sum_cons, List.sum_nil] <;>
    unfold nTfidf <;> rw [hnab, hnac, if_neg hsA, if_neg hsB]
  · rw [hab_a, hac_a]
    field_simp
    ring
  · rw [hab_b, hac_b]
    field_simp
    ring
  · rw [hab_c, hac_c]
    field_simp

/-- Evaluation of the stable descending insertion sort on a
three-element list whose middle element has the largest weight and whose
last element has the smallest. -/
theorem insertionSort_three (x y z : List Char × ℝ)
    (hxy : x.2 < y.2) (hzx : z.2 < x.2) :
    List.insertionSort wge [x, y, z] = [y, x, z] := by
  have hyz : wge y z := le_of_lt (lt_trans hzx hxy)
  have hnxy : ¬ wge x y := not_le.2 hxy
  have hxz : wge x z := le_of_lt hzx
  simp only [List.insertionSort, List.orderedInsert]
  rw [if_pos hyz]
  simp only [List.orderedInsert]
  rw [if_neg hnxy, if_pos hxz]

/-- Claim C2 counterexample: on the corpus `["a b", "a c", "a b"]` with
`n = 1`, the weight the scorer reports for `"a"` is strictly below 3
(it is ≈ 1.59, because each document row is l2-normalized before
summing), so it is not the claimed raw sum 3. -/
theorem C2_counterexample :
    aggWeight [['a', ' ', 'b'], ['a', ' ', 'c'], ['a', ' ', 'b']] 1 ['a'] < 3 := by
  rw [c2_agg.1]
  exact c2_core.2.2

/-- Claim C2 (amended): on the corpus `["a b", "a c", "a b"]` with
`n = 1` the scorer returns the three unigrams with the l2-normalized
aggregate weights `b ≈ 1.630`, `a ≈ 1.590`, `c ≈ 0.903` — in closed
form `w(b) = 2(ln(3/2)+1)/√(1+(ln(3/2)+1)²)`,
`w(a) = 2/√(1+(ln(3/2)+1)²) + 1/√(1+(ln 3+1)²)` and
`w(c) = (ln 3+1)/√(1+(ln 3+1)²)` — ranked `b > a > c`, not the claimed
`a > b > c` with weights 3, ≈2.81, ≈2.099. -/
theorem C2_amended :
    get_top_ngrams [['a', ' ', 'b'], ['a', ' ', 'c'], ['a', ' ', 'b']] 1 =
      Except.ok
        [(['b'], 2 * (Real.log (3 / 2) + 1) /
            Real.sqrt (1 + (Real.log (3 / 2) + 1) ^ 2)),
         (['a'], 2 / Real.sqrt (1 + (Real.log (3 / 2) + 1) ^ 2) +
            1 / Real.sqrt (1 + (Real.log 3 + 1) ^ 2)),
         (['c'], (Real.log 3 + 1) / Real.sqrt (1 + (Real.log 3 + 1) ^ 2))] ∧
    aggWeight [['a', ' ', 'b'], ['a', ' ', 'c'], ['a', ' ', 'b']] 1 ['a'] <
      aggWeight [['a', ' ', 'b'], ['a', ' ', 'c'], ['a', ' ', 'b']] 1 ['b'] ∧
    aggWeight [['a', ' ', 'b'], ['a', ' ', 'c'], ['a', ' ', 'b']] 1 ['c'] <
      aggWeight [['a', ' ', 'b'], ['a', ' ', 'c'], ['a', ' ', 'b']] 1 ['a'] := by
  obtain ⟨hga, hgb, hgc⟩ := c2_agg
  have hba : aggWeight [['a', ' ', 'b'], ['a', ' ', 'c'], ['a', ' ', 'b']] 1 ['a'] <
      aggWeight [['a', ' ', 'b'], ['a', ' ', 'c'], ['a', ' ', 'b']] 1 ['b'] := by
    rw [hga, hgb]
    exact c2_core.1
  have hca : aggWeight [['a', ' ', 'b'], ['a', ' ', 'c'], ['a', ' ', 'b']] 1 ['c'] <
      aggWeight [['a', ' ', 'b'], ['a', ' ', 'c'], ['a', ' ', 'b']] 1 ['a'] := by
    rw [hga, hgc]
    exact c2_core.2.1
  refine ⟨?_, hba, hca⟩
  simp only [get_top_ngrams]
  rw [c2_vocab, if_neg (by simp)]
  simp only [List.map_cons, List.map_nil]
  rw [insertionSort_three _ _ _ hba hca]
  rw [hga, hgb, hgc]
  simp [List.take]
